import Mathlib

/-!
Verification of the Flet-Module-Algorithm dataflow core: a shallow embedding of
the pipeline executor (src/modules/pipeline.py), the iterator module and its
spec resolver (src/modules/for_each.py), and the leaf modules
(src/modules/int_source.py, multiply.py, filter.py, transform.py).

Payloads are JSON-like Python values.  Python floats are modelled by rationals;
every float value arising in the verified properties is a small integer, which
IEEE doubles represent exactly, so the rational model is faithful on the
inputs exercised here.
-/

namespace FletCore

/-- JSON-like runtime value (Python: None, bool, int, float, str, list, dict). -/
inductive Val where
  | none
  | bool (b : Bool)
  | int (n : Int)
  | float (q : Rat)
  | str (s : String)
  | list (xs : List Val)
  | dict (entries : List (String × Val))

/-- Python truthiness, bool(x), on JSON-like values. -/
def pyTruthy : Val → Bool
  | Val.none => false
  | Val.bool b => b
  | Val.int n => n != 0
  | Val.float q => q != 0
  | Val.str s => s != ""
  | Val.list xs => !xs.isEmpty
  | Val.dict d => !d.isEmpty

/-- Numbers usable as Python ints in arithmetic: ints and bools (True is 1). -/
def toIntNum : Val → Option Int
  | Val.int n => some n
  | Val.bool b => some (if b then 1 else 0)
  | _ => Option.none

/-- Numbers in general: ints, bools and floats, read as rationals. -/
def toRatNum : Val → Option Rat
  | Val.int n => some (n : Rat)
  | Val.bool b => some (if b then 1 else 0)
  | Val.float q => some q
  | _ => Option.none

/-- Abstract syntax for the expression strings fed to the sandboxed eval in
FilterModule and TransformModule.  The source evaluates a Python expression
with builtins removed and only x bound; we model the fragment those modules
exercise (arithmetic, comparison on the bound variable and literals).  The
constructor PExpr.bad stands for any expression string that fails to parse or
whose evaluation raises, including attempts to reach an import or any other
ambient name, which the empty-builtins environment rejects. -/
inductive PExpr where
  | var
  | lit (v : Val)
  | emod (a b : PExpr)
  | mul (a b : PExpr)
  | eqE (a b : PExpr)
  | geE (a b : PExpr)
  | bad

/-- Python equality on the value fragment the evaluator touches: numeric values
compare across int/bool/float; strings compare as strings; None equals None.
Container equality is outside the modelled expression fragment and yields
false here (no claim compares containers inside an expression). -/
def pyEq (a b : Val) : Bool :=
  match toRatNum a, toRatNum b with
  | some ra, some rb => ra == rb
  | _, _ =>
    match a, b with
    | Val.str s, Val.str t => s == t
    | Val.none, Val.none => true
    | _, _ => false

/-- Python comparison a >= b: numeric cross-type comparison, or string order;
any other pairing raises TypeError, modelled as evaluation failure. -/
def pyGe (a b : Val) : Option Val :=
  match toRatNum a, toRatNum b with
  | some ra, some rb => some (Val.bool (decide (rb ≤ ra)))
  | _, _ =>
    match a, b with
    | Val.str s, Val.str t => some (Val.bool (decide (t ≤ s)))
    | _, _ => Option.none

/-- Python multiplication on numbers: int*int stays int (bools count as ints),
any numeric pairing involving a float gives a float; other pairings are
outside the modelled fragment and fail. -/
def pyMul (a b : Val) : Option Val :=
  match toIntNum a, toIntNum b with
  | some ia, some ib => some (Val.int (ia * ib))
  | _, _ =>
    match toRatNum a, toRatNum b with
    | some ra, some rb => some (Val.float (ra * rb))
    | _, _ => Option.none

/-- Evaluate a modelled expression against the single bound name x, returning
Option.none on any evaluation failure (the source wraps eval in try/except). -/
def pyEval : PExpr → Val → Option Val
  | PExpr.var, x => some x
  | PExpr.lit v, _ => some v
  | PExpr.emod a b, x => do
      let va ← pyEval a x
      let vb ← pyEval b x
      let ia ← toIntNum va
      let ib ← toIntNum vb
      if ib = 0 then Option.none else some (Val.int (Int.fmod ia ib))
  | PExpr.mul a b, x => do
      let va ← pyEval a x
      let vb ← pyEval b x
      pyMul va vb
  | PExpr.eqE a b, x => do
      let va ← pyEval a x
      let vb ← pyEval b x
      some (Val.bool (pyEq va vb))
  | PExpr.geE a b, x => do
      let va ← pyEval a x
      let vb ← pyEval b x
      pyGe va vb
  | PExpr.bad, _ => Option.none

/-- Python str() on JSON-like values.  Atoms are rendered exactly as Python
renders them (integral floats print with a trailing .0); container rendering
is approximated by an opaque tag, and no verified claim inspects it. -/
def pyStr : Val → String
  | Val.none => "None"
  | Val.bool true => "True"
  | Val.bool false => "False"
  | Val.int n => toString n
  | Val.float q => if q.den = 1 then toString q.num ++ ".0" else toString q.num ++ "/" ++ toString q.den
  | Val.str s => s
  | Val.list _ => "<list>"
  | Val.dict _ => "<dict>"

/-- Python int(x): ints pass through, bools become 0/1, floats truncate toward
zero, strings are parsed after stripping whitespace and an optional leading
plus sign (the modelled fragment covers decimal integer literals); anything
else raises, modelled as an error. -/
def pyInt : Val → Except String Int
  | Val.int n => Except.ok n
  | Val.bool b => Except.ok (if b then 1 else 0)
  | Val.float q => Except.ok (Int.tdiv q.num (q.den : Int))
  | Val.str s =>
      let t := s.trim
      let t2 := if t.startsWith "+" then t.drop 1 else t
      match t2.toInt? with
      | some n => Except.ok n
      | Option.none => Except.error ("invalid literal for int() with base 10: " ++ s)
  | _ => Except.error "int() argument must be a string or a number"

/-- Python float(x): ints, bools and floats convert exactly; decimal integer
strings parse (fractional notation is outside the modelled fragment); anything
else raises, modelled as an error. -/
def pyFloat : Val → Except String Rat
  | Val.int n => Except.ok (n : Rat)
  | Val.bool b => Except.ok (if b then 1 else 0)
  | Val.float q => Except.ok q
  | Val.str s =>
      let t := s.trim
      let t2 := if t.startsWith "+" then t.drop 1 else t
      match t2.toInt? with
      | some n => Except.ok ((n : Rat))
      | Option.none => Except.error ("could not convert string to float: " ++ s)
  | _ => Except.error "float() argument must be a string or a number"

/-- The closed set of module classes of the repository that the iterator body
machinery can reference (src/modules/__init__.py).  ToStringModule takes no
part in any verified claim and is omitted from the closed universe. -/
inductive MClass where
  | intSourceC
  | multiplyC
  | filterC
  | transformC
  | forEachC
  deriving DecidableEq

mutual
/-- A value stored in a module configuration dict.  Plain JSON-like values are
CVal.v; a string holding a (possibly unparseable) expression for the sandboxed
evaluator is CVal.exprC; a list of body specs (the body entry that the UI
writes into a ForEach tuple spec) is CVal.specs. -/
inductive CVal where
  | v (x : Val)
  | exprC (e : PExpr)
  | specs (b : List Spec)

/-- A module instance: its class, name, config, and (for ForEachModule) its
body list.  The runtime diagnostic fields last_input/last_output/
propagated_output and the declared type labels are UI-only and not part of
the behaviour modelled here. -/
inductive Module where
  | intSource (name : String) (config : List (String × CVal))
  | multiply (name : String) (config : List (String × CVal))
  | filterM (name : String) (config : List (String × CVal))
  | transform (name : String) (config : List (String × CVal))
  | forEach (name : String) (body : List Spec) (config : List (String × CVal))

/-- A ForEach body spec (ForEachModule._instantiate_step accepts: a live
BaseModule instance, a module class, a tuple of class and config, a zero-arg
factory callable, or anything else, which is rejected).  Spec.factory carries
the instance the factory returns when called; Spec.other is a non-instance,
non-tuple, non-callable object (a plain JSON value). -/
inductive Spec where
  | inst (m : Module)
  | classRef (c : MClass)
  | classConfig (c : MClass) (cfg : Option (List (String × CVal)))
  | factory (m : Module)
  | other (x : Val)
end

/-- Module configuration dict: string-keyed, insertion-ordered, unique keys. -/
abbrev Config := List (String × CVal)

/-- The name attribute of a module. -/
def Module.name : Module → String
  | Module.intSource n _ => n
  | Module.multiply n _ => n
  | Module.filterM n _ => n
  | Module.transform n _ => n
  | Module.forEach n _ _ => n

/-- The Python class __name__ of each module class. -/
def className : MClass → String
  | MClass.intSourceC => "IntSource"
  | MClass.multiplyC => "MultiplyModule"
  | MClass.filterC => "FilterModule"
  | MClass.transformC => "TransformModule"
  | MClass.forEachC => "ForEachModule"

/-- The constructor parameter names of each class after self, as
inspect.signature reports them (ForEachModule adds body between name and
config; every other class takes name and config). -/
def ctorParams : MClass → List String
  | MClass.forEachC => ["name", "body", "config"]
  | _ => ["name", "config"]

/-- Calling the class with no arguments: default name, empty body, config
defaulting to an empty dict (config or in each __init__). -/
def defaultModule : MClass → Module
  | MClass.intSourceC => Module.intSource "IntSource" []
  | MClass.multiplyC => Module.multiply "Multiply" []
  | MClass.filterC => Module.filterM "Filter" []
  | MClass.transformC => Module.transform "Transform" []
  | MClass.forEachC => Module.forEach "ForEach" [] []

/-- Calling the class with config equal to the given dict and every other
parameter defaulted, i.e. cls(config=cfg). -/
def mkConfigModule : MClass → Config → Module
  | MClass.intSourceC, cfg => Module.intSource "IntSource" cfg
  | MClass.multiplyC, cfg => Module.multiply "Multiply" cfg
  | MClass.filterC, cfg => Module.filterM "Filter" cfg
  | MClass.transformC, cfg => Module.transform "Transform" cfg
  | MClass.forEachC, cfg => Module.forEach "ForEach" [] cfg

/-- Calling the class with the keyword arguments kw, a sub-dict of a tuple
spec config whose keys all name constructor parameters, i.e. cls(**kw).
A name keyword must hold a string and a config keyword a dict to stay inside
the modelled space (Python would store other values verbatim and misbehave
later); a body keyword takes effect only on ForEachModule. -/
def constructKw (c : MClass) (kw : Config) : Module :=
  let nm := match kw.lookup "name" with
    | some (CVal.v (Val.str s)) => s
    | _ => (defaultModule c).name
  let cfgv : Config := match kw.lookup "config" with
    | some (CVal.v (Val.dict d)) => d.map (fun p => (p.1, CVal.v p.2))
    | _ => []
  match c with
  | MClass.forEachC =>
      let b := match kw.lookup "body" with
        | some (CVal.specs bs) => bs
        | _ => []
      Module.forEach nm b cfgv
  | MClass.intSourceC => Module.intSource nm cfgv
  | MClass.multiplyC => Module.multiply nm cfgv
  | MClass.filterC => Module.filterM nm cfgv
  | MClass.transformC => Module.transform nm cfgv

/-- ForEachModule._instantiate_step: turn one body spec into a fresh module.

Instance spec: inspect.signature finds the constructor parameters, and every
one of them (name, config, and body for ForEachModule) exists as an attribute
of the instance, so the kwargs dict is nonempty and cls(**kwargs) rebuilds a
module with exactly the same name, config and body; the construction never
raises for the classes of this repository.

Tuple spec with a dict config: the keys naming constructor parameters are
passed as keywords when any match; otherwise the whole dict is passed as
cls(config=cfg), which every modelled class accepts.  A tuple whose config is
None takes the cls(config=None) path, normalising to an empty config.

Class spec and factory spec go through the callable branch: calling the class
gives an all-defaults instance, calling the factory yields the instance it
returns.  Any other object raises TypeError, modelled as an error result. -/
def resolveStep : Spec → Except String Module
  | Spec.inst m => Except.ok m
  | Spec.classConfig c cfg? =>
      match cfg? with
      | some cfg =>
          let kw := cfg.filter (fun p => (ctorParams c).contains p.1)
          if kw.isEmpty then Except.ok (mkConfigModule c cfg)
          else Except.ok (constructKw c kw)
      | Option.none => Except.ok (mkConfigModule c [])
  | Spec.classRef c => Except.ok (defaultModule c)
  | Spec.factory m => Except.ok m
  | Spec.other x => Except.error ("Unsupported body spec for ForEach: " ++ pyStr x)

/-- Reading the expr entry of a config.  Filter computes
(config.get("expr") or "") and Transform config.get("expr", ""); both then
treat a falsy expr as absent (predicate True in Filter, identity in
Transform), which this getter renders as Option.none.  A present expression
string is carried parsed (CVal.exprC); any other truthy value in the expr slot
makes the host eval raise, which PExpr.bad captures. -/
def getExprCfg (cfg : Config) : Option PExpr :=
  match cfg.lookup "expr" with
  | Option.none => Option.none
  | some (CVal.exprC e) => some e
  | some (CVal.v (Val.str s)) => if s = "" then Option.none else some PExpr.bad
  | some (CVal.v x) => if pyTruthy x then some PExpr.bad else Option.none
  | some (CVal.specs _) => some PExpr.bad

/-- Reading the mode entry of FilterModule config:
(config.get("mode") or "keep").  A truthy value that is not a string compares
unequal to both "keep" and "drop", rendered as Option.none. -/
def getMode (cfg : Config) : Option String :=
  match cfg.lookup "mode" with
  | Option.none => some "keep"
  | some (CVal.v (Val.str s)) => if s = "" then some "keep" else some s
  | some (CVal.v x) => if pyTruthy x then Option.none else some "keep"
  | some _ => Option.none

/-- Reading the field entry of a config: projection applies only when field is
truthy.  Non-string field values are outside the modelled configuration space
(the spec declares field an optional key, i.e. a string). -/
def getField (cfg : Config) : Option String :=
  match cfg.lookup "field" with
  | some (CVal.v (Val.str s)) => if s = "" then Option.none else some s
  | _ => Option.none

/-- FilterModule._eval_pred: empty expr means keep everything; otherwise the
truthiness of the evaluated expression, with any evaluation error treated as
False. -/
def evalPred (e? : Option PExpr) (x : Val) : Bool :=
  match e? with
  | Option.none => true
  | some e =>
    match pyEval e x with
    | some v => pyTruthy v
    | Option.none => false

/-- FilterModule.process list coercion for non-list payloads: list(x) turns a
string into its characters and a dict into its keys; non-iterable scalars
raise TypeError, caught and replaced by a one-element list. -/
def filterItems : Val → List Val
  | Val.list xs => xs
  | Val.str s => s.toList.map (fun ch => Val.str (String.mk [ch]))
  | Val.dict d => d.map (fun p => Val.str p.1)
  | v => [v]

/-- The tested value: the item itself, or item[field] (None when the key is
absent) when a field is configured and the item is a dict. -/
def projVal (f? : Option String) (itm : Val) : Val :=
  match f?, itm with
  | some f, Val.dict d => (d.lookup f).getD Val.none
  | _, _ => itm

/-- The per-item loop of FilterModule.process: project the field when the item
is a dict, evaluate the predicate, and append the original item when
mode is keep and the predicate holds, or mode is drop and it does not. -/
def filterLoop (mode : Option String) (f? : Option String) (e? : Option PExpr) :
    List Val → List Val
  | [] => []
  | itm :: rest =>
      let keep := evalPred e? (projVal f? itm)
      if mode == some "keep" && keep then itm :: filterLoop mode f? e? rest
      else if mode == some "drop" && !keep then itm :: filterLoop mode f? e? rest
      else filterLoop mode f? e? rest

/-- FilterModule.process (src/modules/filter.py): None returns an empty list
before anything else runs; otherwise the payload is coerced to a list and
filtered item by item. -/
def filterProcess (cfg : Config) (input : Val) : Val :=
  match input with
  | Val.none => Val.list []
  | _ => Val.list (filterLoop (getMode cfg) (getField cfg) (getExprCfg cfg) (filterItems input))

/-- TransformModule._eval: empty expr is the identity, and any evaluation
error returns the value unchanged. -/
def evalT (e? : Option PExpr) (x : Val) : Val :=
  match e? with
  | Option.none => x
  | some e => (pyEval e x).getD x

/-- Python dict item assignment d[k] = v: replace the value in place when the
key exists, otherwise append the pair at the end (insertion order). -/
def dictSet : List (String × Val) → String → Val → List (String × Val)
  | [], k, v => [(k, v)]
  | (k2, v2) :: rest, k, v =>
      if k2 = k then (k2, v) :: rest else (k2, v2) :: dictSet rest k v

/-- TransformModule._apply_one: when field is set and the item is a dict, the
projected value (None when the key is absent) is evaluated and written back
into a shallow copy of the dict; otherwise the item itself is evaluated and
replaces the item wholesale. -/
def applyOne (e? : Option PExpr) (f? : Option String) (itm : Val) : Val :=
  match f?, itm with
  | some f, Val.dict d =>
      let val := (d.lookup f).getD Val.none
      let new := evalT e? val
      Val.dict (dictSet d f new)
  | _, _ => evalT e? itm

/-- TransformModule.process (src/modules/transform.py): None returns an empty
list before anything else runs; a list maps _apply_one over its items; any
other payload is transformed as a single item. -/
def transformProcess (cfg : Config) (input : Val) : Val :=
  match input with
  | Val.none => Val.list []
  | Val.list xs => Val.list (xs.map (applyOne (getExprCfg cfg) (getField cfg)))
  | v => applyOne (getExprCfg cfg) (getField cfg) v

/-- Python multiplication input * factor where factor is a float: numeric
inputs give a float, any other input raises TypeError (the module catches it
and passes the input through). -/
def mulByFloat (x : Val) (factor : Rat) : Option Val :=
  match toRatNum x with
  | some r => some (Val.float (r * factor))
  | Option.none => Option.none

/-- A CVal read as an argument of int(): only plain values convert. -/
def pyIntC : CVal → Except String Int
  | CVal.v x => pyInt x
  | _ => Except.error "int() argument must be a string or a number"

/-- A CVal read as an argument of float(): only plain values convert. -/
def pyFloatC : CVal → Except String Rat
  | CVal.v x => pyFloat x
  | _ => Except.error "float() argument must be a string or a number"

/-- The process methods of the non-iterator modules.

IntSource (src/modules/int_source.py): int(config.get("start", 1)) and
int(config.get("count", 5)) may raise (modelled as an error result); the
output is the list of count consecutive integers from start, empty when count
is not positive.

Multiply (src/modules/multiply.py): float(config.get("factor", 1)) may raise;
the multiplication itself is wrapped in try/except with the input passed
through unchanged on failure.

Filter and Transform never raise.  The ForEach case of this function is never
consulted: callers dispatch ForEach modules to the recursive iterator
semantics before reaching it. -/
def leafProcess : Module → Val → Except String Val
  | Module.intSource _ cfg, _ => do
      let start ← pyIntC ((cfg.lookup "start").getD (CVal.v (Val.int 1)))
      let count ← pyIntC ((cfg.lookup "count").getD (CVal.v (Val.int 5)))
      Except.ok (Val.list ((List.range count.toNat).map (fun i => Val.int (start + i))))
  | Module.multiply _ cfg, x => do
      let factor ← pyFloatC ((cfg.lookup "factor").getD (CVal.v (Val.int 1)))
      Except.ok ((mulByFloat x factor).getD x)
  | Module.filterM _ cfg, x => Except.ok (filterProcess cfg x)
  | Module.transform _ cfg, x => Except.ok (transformProcess cfg x)
  | Module.forEach _ _ _, x => Except.ok x

/-- One slot of the _body_preview diagnostic list of a ForEachModule: the dict
written for a body step.  The running entry has last_output None and no
nested_preview key; the done entry records the observed input and output and,
when the resolved step is itself a ForEach, a copy of its own preview list. -/
inductive PvEntry where
  | mk (name : String) (lastInput : Val) (lastOutput : Val) (status : String)
      (nested : Option (List (Option PvEntry)))

/-- The _body_preview list: one optional entry per body-spec index. -/
abbrev PreviewList := List (Option PvEntry)

/-- ForEachModule.process list coercion: a non-list payload is wrapped as a
one-element list (isinstance check, no iteration). -/
def listify : Val → List Val
  | Val.list xs => xs
  | v => [v]

/-- Whether a value is a list payload. -/
def Val.isList : Val → Bool
  | Val.list _ => true
  | _ => false

/-- The name fallback chain of the preview entry when the module exposes no
truthy name: a tuple spec and a class spec render the class __name__; str() of
an instance or of a factory function includes a memory address and is
modelled by an opaque tag (no verified claim reads these); any other object
renders through str(). -/
def specFallbackName : Spec → String
  | Spec.classConfig c _ => className c
  | Spec.classRef c => className c
  | Spec.factory _ => "<factory>"
  | Spec.inst _ => "<instance>"
  | Spec.other x => pyStr x

/-- step_name in ForEachModule.process: getattr(mod, "name", None) or the
spec-derived fallback.  When instantiation failed, mod is the spec itself; of
the spec forms only an instance carries a name attribute. -/
def stepNameOf (r : Except String Module) (s : Spec) : String :=
  match r with
  | Except.ok m => if m.name = "" then specFallbackName s else m.name
  | Except.error _ =>
      match s with
      | Spec.inst m => if m.name = "" then specFallbackName (Spec.inst m) else m.name
      | _ => specFallbackName s

/-- A filtered list is no bigger than the original. -/
theorem sizeOf_filter_le (p : String × CVal → Bool) :
    (l : Config) → sizeOf (l.filter p) ≤ sizeOf l
  | [] => Nat.le_refl _
  | a :: rest => by
      have ih := sizeOf_filter_le p rest
      cases hpa : p a with
      | true => simp [List.filter_cons, hpa]; omega
      | false => simp [List.filter_cons, hpa]; omega

/-- Every list has positive size. -/
theorem sizeOf_list_pos (l : Config) : 1 ≤ sizeOf l := by
  cases l with
  | nil => simp
  | cons a t => simp; omega

/-- A spec list stored under a key of a config dict is smaller than the dict. -/
theorem lookup_specs_size :
    (cfg : Config) → ∀ k b, cfg.lookup k = some (CVal.specs b) → sizeOf b < sizeOf cfg
  | [], _, _, h => by simp [List.lookup] at h
  | (k2, v2) :: rest, k, b, h => by
      simp only [List.lookup] at h
      by_cases hk : (k == k2) = true
      · rw [hk] at h
        simp only [cond_true] at h
        cases v2 with
        | v x => exact absurd h (by simp)
        | exprC e => exact absurd h (by simp)
        | specs bs =>
            have hb : bs = b := by
              have := Option.some.inj h
              exact CVal.specs.inj this
            subst hb
            simp
            omega
      · have hne : (k == k2) = false := by
          cases hkk : (k == k2) with
          | true => exact absurd hkk hk
          | false => rfl
        rw [hne] at h
        simp only [cond_false] at h
        have := lookup_specs_size rest k b h
        simp only [List.cons.sizeOf_spec]
        omega

/-- Construction with no matching keywords only ever builds an empty body. -/
theorem mkConfigModule_forEach_body (c : MClass) (cfg : Config) (n : String)
    (b : List Spec) (cf : Config)
    (h : mkConfigModule c cfg = Module.forEach n b cf) : b = [] := by
  cases c <;> simp [mkConfigModule] at h
  exact h.2.1

/-- A class spec resolves to an all-defaults module, whose body is empty. -/
theorem defaultModule_forEach_body (c : MClass) (n : String) (b : List Spec)
    (cf : Config) (h : defaultModule c = Module.forEach n b cf) : b = [] := by
  cases c <;> simp [defaultModule] at h
  exact h.2.1

/-- Keyword construction bounds the body by the keyword dict. -/
theorem constructKw_forEach_size (c : MClass) (kw : Config) (n : String)
    (b : List Spec) (cf : Config)
    (h : constructKw c kw = Module.forEach n b cf) : sizeOf b < sizeOf kw + 1 := by
  cases c <;> simp [constructKw] at h
  obtain ⟨-, h2, -⟩ := h
  cases hlk : kw.lookup "body" with
  | none =>
      rw [hlk] at h2
      simp at h2
      have := sizeOf_list_pos kw
      subst h2
      simp
      omega
  | some cv =>
      rw [hlk] at h2
      cases cv with
      | v x =>
          simp at h2
          have := sizeOf_list_pos kw
          subst h2
          simp
          omega
      | exprC e =>
          simp at h2
          have := sizeOf_list_pos kw
          subst h2
          simp
          omega
      | specs bs =>
          simp at h2
          have hsz := lookup_specs_size kw "body" bs hlk
          rw [← h2]
          omega

/-- Enum classes have unit size. -/
theorem sizeOf_mclass (c : MClass) : sizeOf c = 1 := by
  cases c <;> rfl

/-- The body of a ForEach produced by the spec resolver is strictly smaller
than the spec it came from: the bound that makes the recursive iterator
semantics terminate. -/
theorem resolveStep_forEach_size {s : Spec} {n : String} {b : List Spec}
    {c : Config} (h : resolveStep s = Except.ok (Module.forEach n b c)) :
    sizeOf b < sizeOf s := by
  cases s with
  | inst m =>
      have h' := Except.ok.inj h
      subst h'
      simp
      omega
  | classRef cl =>
      have h' : defaultModule cl = Module.forEach n b c := Except.ok.inj h
      have hb := defaultModule_forEach_body cl n b c h'
      subst hb
      simp [sizeOf_mclass]
      try omega
  | classConfig cl cfg? =>
      cases cfg? with
      | none =>
          have h' : mkConfigModule cl [] = Module.forEach n b c := Except.ok.inj h
          have hb := mkConfigModule_forEach_body cl [] n b c h'
          subst hb
          simp [sizeOf_mclass]
          try omega
      | some cfg =>
          have hle : sizeOf (cfg.filter (fun p => (ctorParams cl).contains p.1)) ≤ sizeOf cfg :=
            sizeOf_filter_le _ cfg
          simp only [resolveStep] at h
          by_cases hie : (cfg.filter (fun p => (ctorParams cl).contains p.1)).isEmpty = true
          · rw [if_pos hie] at h
            have h' := Except.ok.inj h
            have hb := mkConfigModule_forEach_body cl cfg n b c h'
            subst hb
            simp [sizeOf_mclass]
            try omega
          · rw [if_neg hie] at h
            have h' := Except.ok.inj h
            have hb := constructKw_forEach_size cl _ n b c h'
            simp [sizeOf_mclass]
            omega
  | factory m =>
      have h' := Except.ok.inj h
      subst h'
      simp
      omega
  | other x => exact absurd h (by simp [resolveStep])

mutual
/-- One body step of ForEachModule.process: resolve a fresh module (an
instantiation failure falls back to using the spec itself, whose process
attribute then raises and is swallowed, leaving the value unchanged — in the
modelled spec space the only resolution failure is an unsupported object,
which has no process and no _body_preview).  A resolved ForEach recurses;
a resolved leaf runs its process, with a raise swallowed and the value
retained (the asyncio fallback in the except block never fires for the
synchronous modules of this repository).  Returns the new current value and,
when the resolved module is itself a ForEach, the preview list its run left
behind (getattr(mod, "_body_preview", None)). -/
def stepRun (s : Spec) (v : Val) : Val × Option PreviewList :=
  match h : resolveStep s with
  | Except.error _ => (v, Option.none)
  | Except.ok (Module.forEach _ b _) =>
      let r := forEachFull b v
      (r.1, some r.2)
  | Except.ok m =>
      match leafProcess m v with
      | Except.ok r => (r, Option.none)
      | Except.error _ => (v, Option.none)
termination_by (sizeOf s, 0, 0)
decreasing_by
  simp_wf
  exact Prod.Lex.left _ _ (resolveStep_forEach_size h)

/-- The inner loop of ForEachModule.process for one input element: thread the
current value through the remaining body specs, writing the running and done
preview entries at each index. -/
def itemFull : List Spec → Nat → Val → PreviewList → Val × PreviewList
  | [], _, v, pv => (v, pv)
  | s :: rest, idx, v, pv =>
      let nm := stepNameOf (resolveStep s) s
      let pv1 := pv.set idx (some (PvEntry.mk nm v Val.none "running" Option.none))
      let out := stepRun s v
      let pv2 := pv1.set idx (some (PvEntry.mk nm v out.1 "done" out.2))
      itemFull rest (idx + 1) out.1 pv2
termination_by rest idx v pv => (sizeOf rest, 1, 0)

/-- The outer loop of ForEachModule.process: one pass of the whole body per
input element, collecting the final value of each element in order. -/
def itemsLoop (body : List Spec) : List Val → PreviewList → List Val × PreviewList
  | [], pv => ([], pv)
  | i :: rest, pv =>
      let r1 := itemFull body 0 i pv
      let r2 := itemsLoop body rest r1.2
      (r1.1 :: r2.1, r2.2)
termination_by items pv => (sizeOf body, 2, sizeOf items)

/-- ForEachModule.process (src/modules/for_each.py): coerce the payload to a
list, reset _body_preview to one empty slot per body spec, run every element
through the body, and return the collected outputs together with the final
preview state. -/
def forEachFull (body : List Spec) (x : Val) : Val × PreviewList :=
  let items := listify x
  let pv0 : PreviewList := List.replicate body.length Option.none
  let r := itemsLoop body items pv0
  (Val.list r.1, r.2)
termination_by (sizeOf body, 3, 0)
end

/-- BaseModule.process dispatch: a ForEach runs the iterator semantics (its
process never raises); every other module runs its leaf process. -/
def Module.process : Module → Val → Except String Val
  | Module.forEach _ b _, x => Except.ok (forEachFull b x).1
  | m, x => leafProcess m x

/-- One entry of the pipeline log, modelling the strings the source hands to
the logger (message text is represented structurally). -/
inductive LogEntry where
  | starting
  | runningStage (name : String)
  | stageFailed (name : String) (msg : String)
  | cbFailed (name : String) (msg : String)
  | finished

/-- The observable outcome of Pipeline.run: the returned payload or the
re-raised stage failure, the names of the stages whose process was invoked in
order, and the log. -/
structure RunOutcome where
  result : Except (String × String) Val
  ran : List String
  log : List LogEntry

/-- The stage loop of Pipeline.run (src/modules/pipeline.py): each module
receives the accumulated payload; a raise inside process is logged and
re-raised, aborting the remaining stages; on success the on_module_output
callback is invoked and any raise inside it is caught and logged without
affecting the run.  The diagnostic assignments to last_input, last_output and
propagated_output carry no behaviour and are not modelled. -/
def pipelineGo (cb : Module → Val → Except String Unit) :
    List Module → Val → RunOutcome
  | [], _data => { result := Except.ok _data, ran := [], log := [LogEntry.finished] }
  | m :: rest, data =>
      match m.process data with
      | Except.error e =>
          { result := Except.error (m.name, e)
            ran := [m.name]
            log := [LogEntry.runningStage m.name, LogEntry.stageFailed m.name e] }
      | Except.ok r =>
          let cbLog := match cb m r with
            | Except.ok _ => []
            | Except.error ce => [LogEntry.cbFailed m.name ce]
          let next := pipelineGo cb rest r
          { result := next.result
            ran := m.name :: next.ran
            log := LogEntry.runningStage m.name :: cbLog ++ next.log }

/-- Pipeline.run: an absent (None) initial payload defaults to the empty
list, then the stage loop runs. -/
def pipelineRun (mods : List Module) (init : Option Val)
    (cb : Module → Val → Except String Unit) : RunOutcome :=
  let data := init.getD (Val.list [])
  let o := pipelineGo cb mods data
  { o with log := LogEntry.starting :: o.log }

mutual
/-- The value effect of one body step, without preview bookkeeping: a
resolution failure or a swallowed process failure keeps the value; a resolved
ForEach contributes the list of its per-element results. -/
def stepVal (s : Spec) (v : Val) : Val :=
  match h : resolveStep s with
  | Except.error _ => v
  | Except.ok (Module.forEach _ b _) => Val.list (mapVals b (listify v))
  | Except.ok m =>
      match leafProcess m v with
      | Except.ok r => r
      | Except.error _ => v
termination_by (sizeOf s, 0, 0)
decreasing_by
  simp_wf
  exact Prod.Lex.left _ _ (resolveStep_forEach_size h)

/-- Threading one value through a body spec list, step by step. -/
def threadVal : List Spec → Val → Val
  | [], v => v
  | s :: rest, v => threadVal rest (stepVal s v)
termination_by rest v => (sizeOf rest, 1, 0)

/-- The per-element results of a body over a list of input elements. -/
def mapVals (body : List Spec) : List Val → List Val
  | [] => []
  | i :: rest => threadVal body i :: mapVals body rest
termination_by items => (sizeOf body, 2, sizeOf items)
end

/-- The recursion bundle for proving that the preview-threading interpreter
computes the same values as the clean value semantics, indexed by a bound on
the spec sizes involved. -/
def ValEquivAt (n : Nat) : Prop :=
  (∀ s v, sizeOf s ≤ n → (stepRun s v).1 = stepVal s v)
  ∧ (∀ rest idx v pv, sizeOf rest ≤ n → (itemFull rest idx v pv).1 = threadVal rest v)
  ∧ (∀ body items pv, sizeOf body ≤ n → (itemsLoop body items pv).1 = mapVals body items)

theorem valEquivAt_holds : ∀ n, ValEquivAt n := by
  intro n
  induction n using Nat.strong_induction_on with
  | _ n IH =>
    have h1 : ∀ s v, sizeOf s ≤ n → (stepRun s v).1 = stepVal s v := by
      intro s v hs
      rw [stepRun, stepVal]
      cases hres : resolveStep s with
      | error e => simp
      | ok m =>
        cases m with
        | forEach nm b cf =>
            simp only
            rw [forEachFull]
            simp only
            have hb : sizeOf b < sizeOf s := resolveStep_forEach_size hres
            have hb2 : sizeOf b ≤ n - 1 := by omega
            have hn : n - 1 < n := by omega
            have := (IH (n - 1) hn).2.2 b (listify v) (List.replicate b.length Option.none) hb2
            simp [this]
        | intSource nm cf =>
            simp only
            cases leafProcess (Module.intSource nm cf) v <;> simp
        | multiply nm cf =>
            simp only
            cases leafProcess (Module.multiply nm cf) v <;> simp
        | filterM nm cf =>
            simp only
            cases leafProcess (Module.filterM nm cf) v <;> simp
        | transform nm cf =>
            simp only
            cases leafProcess (Module.transform nm cf) v <;> simp
    have h2 : ∀ rest idx v pv, sizeOf rest ≤ n → (itemFull rest idx v pv).1 = threadVal rest v := by
      intro rest
      induction rest with
      | nil => intro idx v pv hs; rw [itemFull, threadVal]
      | cons s rest ih =>
          intro idx v pv hs
          have hs2 : sizeOf rest ≤ n := by simp at hs; omega
          have hss : sizeOf s ≤ n := by simp at hs; omega
          rw [itemFull, threadVal]
          rw [ih (idx + 1) (stepRun s v).1 _ hs2, h1 s v hss]
    have h3 : ∀ body items pv, sizeOf body ≤ n → (itemsLoop body items pv).1 = mapVals body items := by
      intro body items
      induction items with
      | nil => intro pv hs; rw [itemsLoop, mapVals]
      | cons i rest ih =>
          intro pv hs
          rw [itemsLoop, mapVals]
          simp only
          rw [ih _ hs, h2 body 0 i pv hs]
    exact ⟨h1, h2, h3⟩

/-- The value component of one full body step agrees with the clean step. -/
theorem stepRun_fst (s : Spec) (v : Val) : (stepRun s v).1 = stepVal s v :=
  (valEquivAt_holds (sizeOf s)).1 s v (Nat.le_refl _)

/-- The value component of the per-element loop agrees with clean threading. -/
theorem itemFull_fst (rest : List Spec) (idx : Nat) (v : Val) (pv : PreviewList) :
    (itemFull rest idx v pv).1 = threadVal rest v :=
  (valEquivAt_holds (sizeOf rest)).2.1 rest idx v pv (Nat.le_refl _)

/-- The value component of the element loop agrees with the clean map. -/
theorem itemsLoop_fst (body : List Spec) (items : List Val) (pv : PreviewList) :
    (itemsLoop body items pv).1 = mapVals body items :=
  (valEquivAt_holds (sizeOf body)).2.2 body items pv (Nat.le_refl _)

/-- ForEachModule.process returns exactly the clean per-element results. -/
theorem forEachFull_fst (body : List Spec) (x : Val) :
    (forEachFull body x).1 = Val.list (mapVals body (listify x)) := by
  rw [forEachFull]
  simp only
  rw [itemsLoop_fst]

/-- The clean element loop is a List.map. -/
theorem mapVals_eq_map (body : List Spec) :
    ∀ items : List Val, mapVals body items = items.map (threadVal body) := by
  intro items
  induction items with
  | nil => rw [mapVals]; rfl
  | cons i rest ih => rw [mapVals]; simp [ih]

/-- Setting an index and taking one past it appends the new entry to the
unchanged prefix. -/
theorem take_succ_set {a : Type} (l : List a) (i : Nat) (e : a)
    (h : i < l.length) : (l.set i e).take (i + 1) = l.take i ++ [e] := by
  induction l generalizing i with
  | nil => simp at h
  | cons x xs ih =>
      cases i with
      | zero => simp
      | succ j =>
          simp only [List.set, List.take, List.cons_append]
          rw [ih j (by simp at h; omega)]

/-- The per-element loop never changes the preview length. -/
theorem itemFull_len (rest : List Spec) :
    ∀ idx v pv, (itemFull rest idx v pv).2.length = pv.length := by
  induction rest with
  | nil => intro idx v pv; rw [itemFull]
  | cons s rest ih =>
      intro idx v pv
      rw [itemFull]
      rw [ih]
      simp

/-- The element loop never changes the preview length. -/
theorem itemsLoop_len (body : List Spec) (items : List Val) :
    ∀ pv, (itemsLoop body items pv).2.length = pv.length := by
  induction items with
  | nil => intro pv; rw [itemsLoop]
  | cons i rest ih =>
      intro pv
      rw [itemsLoop]
      rw [ih, itemFull_len]

/-- ForEachModule.process always leaves one preview slot per body spec. -/
theorem forEachFull_len (body : List Spec) (x : Val) :
    (forEachFull body x).2.length = body.length := by
  rw [forEachFull]
  simp only
  rw [itemsLoop_len]
  simp

/-- One element pass overwrites every slot from its starting index on, so two
preview states that agree below the index and fill exactly the remaining
slots lead to the same final preview. -/
theorem itemFull_pv_agree (rest : List Spec) :
    ∀ idx v pv pv', pv.length = pv'.length → pv.length = idx + rest.length →
      pv.take idx = pv'.take idx →
      (itemFull rest idx v pv).2 = (itemFull rest idx v pv').2 := by
  induction rest with
  | nil =>
      intro idx v pv pv' hlen hsz htake
      rw [itemFull, itemFull]
      simp only [List.length_nil, Nat.add_zero] at hsz
      have hpv : pv.take idx = pv := by
        rw [show idx = pv.length from hsz.symm]
        exact List.take_length pv
      have hpv' : pv'.take idx = pv' := by
        rw [show idx = pv'.length by omega]
        exact List.take_length pv'
      rw [← hpv, ← hpv', htake]
  | cons s rest ih =>
      intro idx v pv pv' hlen hsz htake
      rw [itemFull, itemFull]
      apply ih (idx + 1)
      · simp [hlen]
      · simp at hsz ⊢
        omega
      · have hidx : idx < pv.length := by simp at hsz; omega
        have hidx' : idx < pv'.length := by omega
        rw [List.set_set, List.set_set]
        rw [take_succ_set _ _ _ hidx, take_succ_set _ _ _ hidx', htake]

/-- The preview after a run over a nonempty element list depends only on the
last element: every earlier element is fully overwritten. -/
theorem itemsLoop_snd_last (body : List Spec) (a : Val) :
    ∀ xs pv pv', pv.length = body.length → pv'.length = body.length →
      (itemsLoop body (xs ++ [a]) pv).2 = (itemsLoop body [a] pv').2 := by
  intro xs
  induction xs with
  | nil =>
      intro pv pv' hl hl'
      simp only [List.nil_append, itemsLoop]
      apply itemFull_pv_agree
      · omega
      · simpa using hl
      · simp
  | cons x xs ih =>
      intro pv pv' hl hl'
      rw [List.cons_append, itemsLoop]
      rw [ih (itemFull body 0 x pv).2 pv' (by rw [itemFull_len]; exact hl) hl']

/-- Whether a module is the iterator. -/
def Module.isForEach : Module → Bool
  | Module.forEach _ _ _ => true
  | _ => false

/-- Unfolding stepVal when resolution fails: the value is retained. -/
theorem stepVal_error (s : Spec) (v : Val) (e : String)
    (h : resolveStep s = Except.error e) : stepVal s v = v := by
  rw [stepVal]
  split
  · rfl
  · rename_i heq
    rw [h] at heq
    exact absurd heq (by simp)
  · rename_i heq
    rw [h] at heq
    exact absurd heq (by simp)

/-- Unfolding stepVal when resolution yields an iterator: recurse per item. -/
theorem stepVal_forEach (s : Spec) (v : Val) (n : String) (b : List Spec)
    (c : Config) (h : resolveStep s = Except.ok (Module.forEach n b c)) :
    stepVal s v = Val.list (mapVals b (listify v)) := by
  rw [stepVal]
  split
  · rename_i heq
    rw [h] at heq
    exact absurd heq (by simp)
  · rename_i nm b2 cf heq
    rw [h] at heq
    have := Except.ok.inj heq
    have hb : b = b2 := (Module.forEach.inj this).2.1
    rw [hb]
  · rename_i m hnot heq
    rw [h] at heq
    have := Except.ok.inj heq
    exact absurd this.symm (hnot n b c)

/-- Unfolding stepVal when resolution yields a leaf: run its process, keeping
the value on a raise. -/
theorem stepVal_leaf (s : Spec) (v : Val) (m : Module)
    (h : resolveStep s = Except.ok m) (hm : m.isForEach = false) :
    stepVal s v = match leafProcess m v with
      | Except.ok r => r
      | Except.error _ => v := by
  rw [stepVal]
  split
  · rename_i heq
    rw [h] at heq
    exact absurd heq (by simp)
  · rename_i nm b2 cf heq
    rw [h] at heq
    have := Except.ok.inj heq
    rw [this] at hm
    exact absurd hm (by simp [Module.isForEach])
  · rename_i m2 hnot heq
    rw [h] at heq
    have hme := Except.ok.inj heq
    rw [hme]

/-- BaseModule.process of a leaf is its leaf process. -/
theorem process_leaf (m : Module) (v : Val) (hm : m.isForEach = false) :
    Module.process m v = leafProcess m v := by
  cases m with
  | forEach n b c => exact absurd hm (by simp [Module.isForEach])
  | intSource n c => rfl
  | multiply n c => rfl
  | filterM n c => rfl
  | transform n c => rfl

/-- BaseModule.process of the iterator: the clean per-element map, and it
never raises. -/
theorem process_forEach (n : String) (b : List Spec) (c : Config) (x : Val) :
    Module.process (Module.forEach n b c) x
      = Except.ok (Val.list ((listify x).map (threadVal b))) := by
  show Except.ok (forEachFull b x).1 = _
  rw [forEachFull_fst, mapVals_eq_map]

/-- Whether a value is a dict payload. -/
def Val.isDict : Val → Bool
  | Val.dict _ => true
  | _ => false

/-- Setting a key that is present replaces its value in place, so writing the
looked-up value back leaves the dict unchanged. -/
theorem dictSet_lookup (f : String) :
    ∀ (d : List (String × Val)) (w : Val), d.lookup f = some w → dictSet d f w = d := by
  intro d
  induction d with
  | nil => intro w h; simp [List.lookup] at h
  | cons kv rest ih =>
      intro w h
      obtain ⟨k2, v2⟩ := kv
      simp only [List.lookup] at h
      by_cases hk : f = k2
      · have : (f == k2) = true := by simp [hk]
        rw [this] at h
        simp only [cond_true] at h
        have hw := Option.some.inj h
        simp [dictSet, hk.symm, hw]
      · have : (f == k2) = false := by simp [hk]
        rw [this] at h
        simp only [cond_false] at h
        have hkk : k2 ≠ f := fun hc => hk hc.symm
        simp [dictSet, hkk, ih w h]

/-- Setting a key that is absent appends it at the end. -/
theorem dictSet_absent (f : String) (x : Val) :
    ∀ d : List (String × Val), d.lookup f = Option.none → dictSet d f x = d ++ [(f, x)] := by
  intro d
  induction d with
  | nil => intro h; simp [dictSet]
  | cons kv rest ih =>
      intro h
      obtain ⟨k2, v2⟩ := kv
      simp only [List.lookup] at h
      by_cases hk : f = k2
      · have : (f == k2) = true := by simp [hk]
        rw [this] at h
        simp at h
      · have : (f == k2) = false := by simp [hk]
        rw [this] at h
        simp only [cond_false] at h
        have hkk : k2 ≠ f := fun hc => hk hc.symm
        simp [dictSet, hkk, ih h]

/-- The keep decision exactly as the claim states it: the tested value is the
item itself, or its projected field when field is set and the item is a
mapping; keep iff mode is keep and the predicate holds, or mode is drop and
it does not. -/
def keepFn (cfg : Config) (itm : Val) : Bool :=
  let p := evalPred (getExprCfg cfg) (projVal (getField cfg) itm)
  (getMode cfg == some "keep" && p) || (getMode cfg == some "drop" && !p)

/-- A two-branch conditional with equal positive arms folds into a
disjunction. -/
theorem if_or_split (A B : Bool) (x y : List Val) :
    (if A then x else if B then x else y) = if A || B then x else y := by
  cases A <;> cases B <;> simp

/-- The sequential append loop of FilterModule.process is List.filter of the
keep decision. -/
theorem filterLoop_eq_filter (cfg : Config) :
    ∀ items : List Val,
      filterLoop (getMode cfg) (getField cfg) (getExprCfg cfg) items
        = items.filter (keepFn cfg) := by
  intro items
  induction items with
  | nil => rfl
  | cons itm rest ih =>
      rw [filterLoop, List.filter_cons]
      rw [ih]
      rw [if_or_split]
      rfl

/-- The even-number predicate of the claim, x % 2 == 0. -/
def exprEven : PExpr :=
  PExpr.eqE (PExpr.emod PExpr.var (PExpr.lit (Val.int 2))) (PExpr.lit (Val.int 0))

/-- C3: FilterModule.process on a list payload returns exactly the items, in
order, for which the keep decision selects them: the tested value is the item
or its projected field when field is set and the item is a mapping; the
predicate is the truthiness of the evaluated expr with any evaluation error
counting as false; an item is kept iff mode is keep and the predicate holds,
or mode is drop and it does not, with mode defaulting to keep.  The even
filter on the list one to five returns two and four, and an unparseable
expression under the default mode on a three-element list returns the empty
list. -/
theorem filter_keeps_exactly_predicate_matches :
    (∀ cfg items, filterProcess cfg (Val.list items)
        = Val.list (items.filter (keepFn cfg)))
    ∧ filterProcess [("expr", CVal.exprC exprEven), ("mode", CVal.v (Val.str "keep"))]
        (Val.list [Val.int 1, Val.int 2, Val.int 3, Val.int 4, Val.int 5])
      = Val.list [Val.int 2, Val.int 4]
    ∧ filterProcess [("expr", CVal.exprC PExpr.bad)]
        (Val.list [Val.int 1, Val.int 2, Val.int 3]) = Val.list [] := by
  refine ⟨?_, ?_, ?_⟩
  · intro cfg items
    show Val.list (filterLoop (getMode cfg) (getField cfg) (getExprCfg cfg) items) = _
    rw [filterLoop_eq_filter]
  · rfl
  · rfl

/-- C10: both FilterModule.process and TransformModule.process return the
empty list, not None and not an identity or fallback value, for a None
payload, whatever the configuration, including ones whose expression would
fail: the None check precedes any expression evaluation. -/
theorem none_payload_yields_empty_list :
    (∀ cfg, filterProcess cfg Val.none = Val.list [])
    ∧ (∀ cfg, transformProcess cfg Val.none = Val.list [])
    ∧ Val.list [] ≠ Val.none := by
  refine ⟨fun cfg => rfl, fun cfg => rfl, by simp⟩

def cfgC5 : Config := [("expr", CVal.exprC PExpr.bad), ("field", CVal.v (Val.str "a"))]

/-- C5 counterexample: with a configured field that is absent from a mapping
item, an evaluation failure does not leave the item unchanged — the shallow
copy gains the field bound to None; and a None payload yields the empty list
rather than the same-shape identity the claim requires for scalars. -/
theorem transform_not_identity_counterexample :
    transformProcess cfgC5 (Val.list [Val.dict [("b", Val.int 1)]])
      = Val.list [Val.dict [("b", Val.int 1), ("a", Val.none)]]
    ∧ Val.list [Val.dict [("b", Val.int 1), ("a", Val.none)]]
      ≠ Val.list [Val.dict [("b", Val.int 1)]]
    ∧ transformProcess cfgC5 Val.none = Val.list []
    ∧ Val.list [] ≠ Val.none := by
  refine ⟨rfl, by simp, rfl, by simp⟩

/-- C5 (amended): Transform maps each list item independently through
_apply_one and applies the same rule to a non-null scalar payload (a null
payload yields the empty list instead); when no field projection applies, an
evaluation failure leaves the item unchanged; with a field projection, an
evaluation failure writes the projected value back into a shallow copy,
which equals the original mapping when the field is present but adds the
field as None when it is absent; an expression attempting to use an import
or other ambient capability on a list of two ints leaves it unchanged. -/
theorem transform_semantics_amended :
    (∀ cfg items, transformProcess cfg (Val.list items)
        = Val.list (items.map (applyOne (getExprCfg cfg) (getField cfg))))
    ∧ (∀ cfg v, v ≠ Val.none → v.isList = false →
        transformProcess cfg v = applyOne (getExprCfg cfg) (getField cfg) v)
    ∧ (∀ e f? itm, pyEval e itm = Option.none →
        (f? = Option.none ∨ itm.isDict = false) →
        applyOne (some e) f? itm = itm)
    ∧ (∀ e f d w, List.lookup f d = some w → pyEval e w = Option.none →
        applyOne (some e) (some f) (Val.dict d) = Val.dict d)
    ∧ (∀ e f d, List.lookup f d = Option.none → pyEval e Val.none = Option.none →
        applyOne (some e) (some f) (Val.dict d) = Val.dict (d ++ [(f, Val.none)]))
    ∧ transformProcess [("expr", CVal.exprC PExpr.bad)]
        (Val.list [Val.int 1, Val.int 2]) = Val.list [Val.int 1, Val.int 2] := by
  refine ⟨?_, ?_, ?_, ?_, ?_, ?_⟩
  · intro cfg items
    rfl
  · intro cfg v hnone hlist
    cases v with
    | none => exact absurd rfl hnone
    | list xs => simp [Val.isList] at hlist
    | bool b => rfl
    | int n => rfl
    | float q => rfl
    | str s => rfl
    | dict d => rfl
  · intro e f? itm he hcase
    cases f? with
    | none =>
        show evalT (some e) itm = itm
        simp [evalT, he]
    | some f =>
        cases itm with
        | dict d =>
            rcases hcase with hc | hc
            · exact absurd hc (by simp)
            · simp [Val.isDict] at hc
        | none => show evalT (some e) Val.none = Val.none; simp [evalT, he]
        | bool b => show evalT (some e) (Val.bool b) = Val.bool b; simp [evalT, he]
        | int n => show evalT (some e) (Val.int n) = Val.int n; simp [evalT, he]
        | float q => show evalT (some e) (Val.float q) = Val.float q; simp [evalT, he]
        | str s => show evalT (some e) (Val.str s) = Val.str s; simp [evalT, he]
        | list xs => show evalT (some e) (Val.list xs) = Val.list xs; simp [evalT, he]
  · intro e f d w hw he
    show Val.dict (dictSet d f (evalT (some e) ((d.lookup f).getD Val.none))) = Val.dict d
    rw [hw]
    show Val.dict (dictSet d f (evalT (some e) w)) = Val.dict d
    have : evalT (some e) w = w := by simp [evalT, he]
    rw [this, dictSet_lookup f d w hw]
  · intro e f d hw he
    show Val.dict (dictSet d f (evalT (some e) ((d.lookup f).getD Val.none))) = _
    rw [hw]
    show Val.dict (dictSet d f (evalT (some e) Val.none)) = _
    have : evalT (some e) Val.none = Val.none := by simp [evalT, he]
    rw [this, dictSet_absent f Val.none d hw]
  · rfl

/-- C5 witness: the amended statement evaluated at concrete inputs. -/
theorem transform_semantics_amended_witness :
    transformProcess [] (Val.int 3) = Val.int 3
    ∧ applyOne (some PExpr.bad) Option.none (Val.int 7) = Val.int 7
    ∧ applyOne (some PExpr.bad) (some "a") (Val.dict [("a", Val.int 1)])
      = Val.dict [("a", Val.int 1)] := by
  refine ⟨?_, ?_, ?_⟩
  · have h := transform_semantics_amended.2.1 [] (Val.int 3) (by simp) rfl
    rw [h]
    rfl
  · exact transform_semantics_amended.2.2.1 PExpr.bad Option.none (Val.int 7) rfl (Or.inl rfl)
  · exact transform_semantics_amended.2.2.2.1 PExpr.bad "a" [("a", Val.int 1)] (Val.int 1) rfl rfl

/-- C4: Pipeline.run defaults an absent initial payload to the empty list;
callback behaviour never influences the final payload or which stages run; a
callback raise at a succeeded stage is logged and the run continues exactly
as the remaining stages would; a raise inside a stage process is logged and
re-raised with that stage the last one invoked, so every later stage is
skipped. -/
theorem pipeline_run_error_handling :
    (∀ mods cb, pipelineRun mods Option.none cb
        = pipelineRun mods (some (Val.list [])) cb)
    ∧ (∀ mods init cb cb2,
        (pipelineRun mods init cb).result = (pipelineRun mods init cb2).result
        ∧ (pipelineRun mods init cb).ran = (pipelineRun mods init cb2).ran)
    ∧ (∀ m rest d cb r ce, Module.process m d = Except.ok r →
        cb m r = Except.error ce →
        LogEntry.cbFailed m.name ce ∈ (pipelineGo cb (m :: rest) d).log
        ∧ (pipelineGo cb (m :: rest) d).result = (pipelineGo cb rest r).result
        ∧ (pipelineGo cb (m :: rest) d).ran = m.name :: (pipelineGo cb rest r).ran)
    ∧ (∀ pre m post d cb v e,
        (pipelineGo cb pre d).result = Except.ok v →
        Module.process m v = Except.error e →
        (pipelineGo cb (pre ++ m :: post) d).result = Except.error (m.name, e)
        ∧ (pipelineGo cb (pre ++ m :: post) d).ran = (pipelineGo cb pre d).ran ++ [m.name]
        ∧ LogEntry.stageFailed m.name e ∈ (pipelineGo cb (pre ++ m :: post) d).log) := by
  have hgo_cb : ∀ (mods : List Module) d cb cb2,
      (pipelineGo cb mods d).result = (pipelineGo cb2 mods d).result
      ∧ (pipelineGo cb mods d).ran = (pipelineGo cb2 mods d).ran := by
    intro mods
    induction mods with
    | nil => intro d cb cb2; exact ⟨rfl, rfl⟩
    | cons m rest ih =>
        intro d cb cb2
        rw [pipelineGo, pipelineGo]
        cases hp : Module.process m d with
        | error e => exact ⟨rfl, rfl⟩
        | ok r =>
            simp only
            exact ⟨(ih r cb cb2).1, by rw [(ih r cb cb2).2]⟩
  refine ⟨?_, ?_, ?_, ?_⟩
  · intro mods cb
    rfl
  · intro mods init cb cb2
    exact hgo_cb mods (init.getD (Val.list [])) cb cb2
  · intro m rest d cb r ce hp hcb
    simp only [pipelineGo, hp, hcb]
    refine ⟨?_, ?_, ?_⟩ <;> simp
  · intro pre m post d cb v e
    induction pre generalizing d with
    | nil =>
        intro hok hp
        simp only [pipelineGo] at hok
        rw [show v = d from (Except.ok.inj hok).symm] at hp
        simp only [List.nil_append, pipelineGo, hp]
        refine ⟨?_, ?_, ?_⟩ <;> simp
    | cons p pre ih =>
        intro hok hp
        simp only [pipelineGo] at hok
        simp only [List.cons_append, pipelineGo]
        cases hpp : Module.process p d with
        | error e2 =>
            rw [hpp] at hok
            simp at hok
        | ok r =>
            rw [hpp] at hok
            simp only at hok
            have hrec := ih r hok hp
            simp only [hpp]
            refine ⟨hrec.1, ?_, ?_⟩
            · simp only [List.append_eq]
              rw [hrec.2.1]
              simp
            · exact List.mem_cons_of_mem _ (List.mem_append_right _ hrec.2.2)

def mulSpec : Spec := Spec.classConfig MClass.multiplyC (some [("factor", CVal.v (Val.int 10))])
def innerFE : Module := Module.forEach "ForEach" [mulSpec] []
def srcMod : Module :=
  Module.intSource "IntSource" [("start", CVal.v (Val.int 1)), ("count", CVal.v (Val.int 3))]
def cbOk : Module → Val → Except String Unit := fun _ _ => Except.ok ()
def outerInst : Module := Module.forEach "ForEach" [Spec.inst innerFE] []
def tupleSpec : Spec :=
  Spec.classConfig MClass.forEachC (some [("body", CVal.specs [mulSpec])])
def outerTuple : Module := Module.forEach "ForEach" [tupleSpec] []
def target6 : Val :=
  Val.list [Val.list [Val.float 10], Val.list [Val.float 20], Val.list [Val.float 30]]
def badSrc : Module := Module.intSource "Bad" [("start", CVal.v (Val.list []))]
def cbBad : Module → Val → Except String Unit := fun _ _ => Except.error "boom"
def l13 : Val := Val.list [Val.int 1, Val.int 2, Val.int 3]

/-- C4 witness: the stage-failure and callback-failure parts at concrete
modules. -/
theorem pipeline_run_error_handling_witness :
    ((pipelineGo cbOk ([srcMod] ++ badSrc :: [srcMod]) (Val.list [])).result
      = Except.error ("Bad", "int() argument must be a string or a number")
    ∧ (pipelineGo cbOk ([srcMod] ++ badSrc :: [srcMod]) (Val.list [])).ran
      = (pipelineGo cbOk [srcMod] (Val.list [])).ran ++ ["Bad"])
    ∧ LogEntry.cbFailed "IntSource" "boom" ∈ (pipelineGo cbBad [srcMod] (Val.list [])).log := by
  constructor
  · have h := pipeline_run_error_handling.2.2.2 [srcMod] badSrc [srcMod]
      (Val.list []) cbOk l13 "int() argument must be a string or a number" rfl rfl
    exact ⟨h.1, h.2.1⟩
  · exact (pipeline_run_error_handling.2.2.1 srcMod [] (Val.list []) cbBad l13 "boom" rfl rfl).1

/-- C6: the pipeline of a three-int source followed by an outer iterator
whose body is one nested iterator multiplying by ten produces three
singleton float lists, identically whether the nested iterator is declared
as a live instance spec or as a class-and-config tuple spec; the two spec
forms resolve to the very same module. -/
theorem nested_iterator_pipeline_equivalence :
    (pipelineRun [srcMod, outerInst] Option.none cbOk).result = Except.ok target6
    ∧ (pipelineRun [srcMod, outerTuple] Option.none cbOk).result = Except.ok target6
    ∧ resolveStep (Spec.inst innerFE) = resolveStep tupleSpec := by
  have hmul : ∀ nn : Int, threadVal [mulSpec] (Val.int nn) = Val.float ((nn : Rat) * 10) := by
    intro nn
    rw [threadVal, threadVal,
      stepVal_leaf mulSpec _ (Module.multiply "Multiply" [("factor", CVal.v (Val.int 10))]) rfl rfl]
    rfl
  have hsrc : Module.process srcMod (Val.list [])
      = Except.ok (Val.list [Val.int 1, Val.int 2, Val.int 3]) := by rfl
  have hout : ∀ s : Spec,
      (∀ v, stepVal s v = Val.list ((listify v).map (threadVal [mulSpec]))) →
      Module.process (Module.forEach "ForEach" [s] [])
          (Val.list [Val.int 1, Val.int 2, Val.int 3]) = Except.ok target6 := by
    intro s hs
    rw [process_forEach]
    simp only [listify, List.map]
    rw [threadVal, threadVal, threadVal, threadVal, threadVal, threadVal]
    rw [hs, hs, hs]
    simp only [listify, List.map]
    rw [hmul, hmul, hmul]
    show Except.ok (Val.list [Val.list [Val.float (1 * 10)], Val.list [Val.float (2 * 10)],
      Val.list [Val.float (3 * 10)]]) = _
    norm_num [target6]
  have hstepI : ∀ v, stepVal (Spec.inst innerFE) v
      = Val.list ((listify v).map (threadVal [mulSpec])) := by
    intro v
    rw [stepVal_forEach (Spec.inst innerFE) v "ForEach" [mulSpec] [] rfl, mapVals_eq_map]
  have hstepT : ∀ v, stepVal tupleSpec v
      = Val.list ((listify v).map (threadVal [mulSpec])) := by
    intro v
    rw [stepVal_forEach tupleSpec v "ForEach" [mulSpec] [] rfl, mapVals_eq_map]
  refine ⟨?_, ?_, rfl⟩
  · show (pipelineRun [srcMod, Module.forEach "ForEach" [Spec.inst innerFE] []]
      Option.none cbOk).result = _
    simp only [pipelineRun, Option.getD, pipelineGo, hsrc, hout (Spec.inst innerFE) hstepI, cbOk]
  · show (pipelineRun [srcMod, Module.forEach "ForEach" [tupleSpec] []]
      Option.none cbOk).result = _
    simp only [pipelineRun, Option.getD, pipelineGo, hsrc, hout tupleSpec hstepT, cbOk]

/-- C7: ForEachModule.process coerces the payload to a list, wrapping any
non-list as a one-element list, and returns exactly one output per input
element in input order, the i-th output obtained by threading the i-th
element through the body. -/
theorem forEach_one_output_per_element :
    (∀ nm body cfg x, Module.process (Module.forEach nm body cfg) x
        = Except.ok (Val.list ((listify x).map (threadVal body))))
    ∧ (∀ xs, listify (Val.list xs) = xs)
    ∧ (∀ v, v.isList = false → listify v = [v]) := by
  refine ⟨process_forEach, fun xs => rfl, ?_⟩
  intro v hv
  cases v with
  | list xs => simp [Val.isList] at hv
  | none => rfl
  | bool b => rfl
  | int n => rfl
  | float q => rfl
  | str s => rfl
  | dict d => rfl

/-- C7 witness: a scalar payload through an empty body. -/
theorem forEach_one_output_per_element_witness :
    Module.process (Module.forEach "ForEach" [] []) (Val.int 5)
      = Except.ok (Val.list [Val.int 5])
    ∧ listify (Val.int 5) = [Val.int 5] := by
  have h := forEach_one_output_per_element
  have h2 := h.2.2 (Val.int 5) rfl
  constructor
  · rw [h.1 "ForEach" [] [] (Val.int 5), h2]
    show Except.ok (Val.list [threadVal [] (Val.int 5)]) = _
    rw [threadVal]
  · exact h2

/-- C8: an iterator with an empty body is the identity on list payloads. -/
theorem forEach_empty_body_identity (nm : String) (cfg : Config) (xs : List Val) :
    Module.process (Module.forEach nm [] cfg) (Val.list xs) = Except.ok (Val.list xs) := by
  rw [process_forEach]
  have hid : List.map (threadVal []) xs = xs := by
    induction xs with
    | nil => rfl
    | cons y ys ih => rw [List.map_cons, threadVal, ih]
  rw [show listify (Val.list xs) = xs from rfl, hid]

/-- ForEachModule.process viewed as a transformer of the stored _body_preview
state: the first statement of the method overwrites the field with one empty
slot per body spec, so the incoming state is discarded unread. -/
def forEachProcessSt (body : List Spec) (st : PreviewList) (x : Val) : Val × PreviewList :=
  forEachFull body x

/-- C9: every call resets the preview to one empty slot per body-spec index
(an empty payload returns exactly the reset state), the preview always holds
one slot per body spec, after a call it reflects only the most recently
processed element, and a second call's output and preview depend only on the
body and the second payload, never on the state the first call left. -/
theorem preview_reset_no_leak :
    (∀ body st st2 x, forEachProcessSt body st x = forEachProcessSt body st2 x)
    ∧ (∀ body x, (forEachFull body x).2.length = body.length)
    ∧ (∀ body, (forEachFull body (Val.list [])).2 = List.replicate body.length Option.none)
    ∧ (∀ body xs a, (forEachFull body (Val.list (xs ++ [a]))).2
        = (forEachFull body (Val.list [a])).2) := by
  refine ⟨fun body st st2 x => rfl, forEachFull_len, ?_, ?_⟩
  · intro body
    rw [forEachFull]
    show (itemsLoop body (listify (Val.list [])) (List.replicate body.length Option.none)).2 = _
    rw [show listify (Val.list []) = ([] : List Val) from rfl, itemsLoop]
  · intro body xs a
    rw [forEachFull, forEachFull]
    show (itemsLoop body (listify (Val.list (xs ++ [a]))) (List.replicate body.length Option.none)).2
      = (itemsLoop body (listify (Val.list [a])) (List.replicate body.length Option.none)).2
    rw [show listify (Val.list (xs ++ [a])) = xs ++ [a] from rfl,
      show listify (Val.list [a]) = [a] from rfl]
    exact itemsLoop_snd_last body a xs _ _ (by simp) (by simp)

/-- C2: a body step whose resolved module's synchronous process raises leaves
the current value unchanged and execution continues with the next body step;
the exception never escapes ForEachModule.process, which always returns an
ok list. -/
theorem body_step_failure_swallowed (s : Spec) (v : Val) (m : Module) (e : String)
    (rest : List Spec) (h1 : resolveStep s = Except.ok m)
    (h2 : Module.process m v = Except.error e) :
    stepVal s v = v
    ∧ threadVal (s :: rest) v = threadVal rest v
    ∧ ∀ nm body cfg x, ∃ ys, Module.process (Module.forEach nm body cfg) x
        = Except.ok (Val.list ys) := by
  have hleaf : m.isForEach = false := by
    cases m with
    | forEach nm b c =>
        rw [process_forEach] at h2
        exact absurd h2 (by simp)
    | intSource nm c => rfl
    | multiply nm c => rfl
    | filterM nm c => rfl
    | transform nm c => rfl
  have hlp : leafProcess m v = Except.error e := by
    rw [← process_leaf m v hleaf]
    exact h2
  have hstep : stepVal s v = v := by
    rw [stepVal_leaf s v m h1 hleaf, hlp]
  refine ⟨hstep, ?_, ?_⟩
  · rw [threadVal, hstep]
  · intro nm body cfg x
    exact ⟨(listify x).map (threadVal body), process_forEach nm body cfg x⟩

/-- C2 witness: an int source whose start config cannot convert raises inside
its process; as a body step the value passes through unchanged. -/
theorem body_step_failure_swallowed_witness :
    stepVal (Spec.inst badSrc) (Val.int 0) = Val.int 0
    ∧ threadVal [Spec.inst badSrc] (Val.int 0) = threadVal [] (Val.int 0) := by
  have h := body_step_failure_swallowed (Spec.inst badSrc) (Val.int 0) badSrc
    "int() argument must be a string or a number" [] rfl rfl
  exact ⟨h.1, h.2.1⟩

def badSpec : Spec := Spec.other (Val.str "bogus")

/-- C1 counterexample: a body spec rejected by every construction strategy
does not make the iterator's process fail: resolution raises, process
catches it, the step is a no-op on the value, and the call returns ok, so
nothing propagates to the Pipeline. -/
theorem construction_failure_not_fatal :
    resolveStep badSpec = Except.error "Unsupported body spec for ForEach: bogus"
    ∧ Module.process (Module.forEach "ForEach" [badSpec] []) (Val.list [Val.int 7])
      = Except.ok (Val.list [Val.int 7]) := by
  refine ⟨rfl, ?_⟩
  rw [process_forEach]
  show Except.ok (Val.list [threadVal [badSpec] (Val.int 7)]) = _
  rw [threadVal, stepVal_error badSpec (Val.int 7) "Unsupported body spec for ForEach: bogus" rfl,
    threadVal]

/-- C1 (amended): when every construction strategy fails for a body spec, the
iterator catches the error inside process and falls back to using the spec
object itself as the step; since that object cannot process, the step leaves
the current value unchanged and execution continues, and the iterator's
process returns normally — no construction error reaches the Pipeline (the
source defines no ConstructionError type at all). -/
theorem construction_failure_recovered (s : Spec) (v : Val) (e : String)
    (rest : List Spec) (h : resolveStep s = Except.error e) :
    stepVal s v = v
    ∧ threadVal (s :: rest) v = threadVal rest v
    ∧ ∀ nm body cfg x, ∃ ys, Module.process (Module.forEach nm body cfg) x
        = Except.ok (Val.list ys) := by
  have hstep := stepVal_error s v e h
  refine ⟨hstep, ?_, ?_⟩
  · rw [threadVal, hstep]
  · intro nm body cfg x
    exact ⟨(listify x).map (threadVal body), process_forEach nm body cfg x⟩

/-- C1 amended witness: the unsupported spec at a concrete value. -/
theorem construction_failure_recovered_witness :
    stepVal badSpec (Val.int 7) = Val.int 7
    ∧ threadVal [badSpec] (Val.int 7) = threadVal [] (Val.int 7) := by
  have h := construction_failure_recovered badSpec (Val.int 7)
    "Unsupported body spec for ForEach: bogus" [] rfl
  exact ⟨h.1, h.2.1⟩

end FletCore
